import Mathlib

/- Shallow embedding of src/app.py (Flask novel crawler service).
   Python strings are modelled as List Char. The regular-expression
   substitutions of clean_content are modelled exactly for the pattern shapes
   the source uses: a literal, followed by lazy gaps (".*?" under DOTALL) and
   further literals, matched case-insensitively over ASCII (re.IGNORECASE);
   re.sub removes the leftmost-shortest matches and continues after each. -/

namespace NovelCrawler

/-- ASCII lower-casing, mirroring the effect of re.IGNORECASE on the ASCII
letters appearing in the source patterns. -/
def asciiLower (c : Char) : Char :=
  if 'A' ≤ c ∧ c ≤ 'Z' then Char.ofNat (c.toNat + 32) else c

/-- Case-insensitive character comparison (ASCII fold). -/
def ciEq (a b : Char) : Bool := asciiLower a == asciiLower b

/-- Python str.strip whitespace set (ASCII part). -/
def isPySpace (c : Char) : Bool :=
  c == ' ' || c == '\t' || c == '\n' || c == '\r' ||
  c == Char.ofNat 11 || c == Char.ofNat 12

/-- Match a literal (case-insensitively) at the head of a string and return
the remainder. -/
def ciMatchLit : List Char → List Char → Option (List Char)
  | [], s => some s
  | _ :: _, [] => none
  | p :: ps, c :: cs => if ciEq p c then ciMatchLit ps cs else none

/-- Find the earliest occurrence of a literal and return the remainder after
it; this is how a lazy gap ".*?lit" consumes input. -/
def ciFindLit (pat : List Char) (s : List Char) : Option (List Char) :=
  match ciMatchLit pat s with
  | some rest => some rest
  | none =>
    match s with
    | [] => none
    | _ :: cs => ciFindLit pat cs

/-- Match the tail of a pattern "(.*?lit)*" after its anchored head. -/
def matchPatTail : List (List Char) → List Char → Option (List Char)
  | [], s => some s
  | lit :: rest, s =>
    match ciFindLit lit s with
    | none => none
    | some s1 => matchPatTail rest s1

/-- Match a whole pattern "lit0 (.*? liti)*" anchored at the current
position; returns the remainder after the match. -/
def matchPatAt (pat : List (List Char)) (s : List Char) : Option (List Char) :=
  match pat with
  | [] => some s
  | lit :: rest =>
    match ciMatchLit lit s with
    | none => none
    | some s1 => matchPatTail rest s1

/-- Scanning loop of the substitution, with a fuel argument that dominates
the length of the remaining input so the recursion is structural; every
match consumes at least the nonempty leading literal, which the length
guard checks. -/
def subAllGo : Nat → List (List Char) → List Char → List Char
  | 0, _, _ => []
  | _ + 1, _, [] => []
  | fuel + 1, pat, c :: cs =>
    match matchPatAt pat (c :: cs) with
    | some rest =>
      if rest.length ≤ cs.length then subAllGo fuel pat rest
      else c :: subAllGo fuel pat cs
    | none => c :: subAllGo fuel pat cs

/-- re.sub of one pattern by the empty string: remove every leftmost
non-overlapping match, scanning left to right. -/
def subAll (pat : List (List Char)) (s : List Char) : List Char :=
  subAllGo (s.length + 1) pat s

/-- The twelve removal patterns of clean_content, in source order. -/
def adPatterns : List (List (List Char)) :=
  [ [("<div class=\"ads").toList, ("</div>").toList]
  , [("<script").toList, ("</script>").toList]
  , [("<a href=").toList, ("</a>").toList]
  , [("<p>").toList, ("请收藏").toList, ("</p>").toList]
  , [("<p>").toList, ("推荐").toList, ("</p>").toList]
  , [("<p>").toList, ("求").toList, ("</p>").toList]
  , [("<p>").toList, ("本章未完").toList, ("</p>").toList]
  , [("<p>").toList, ("继续阅读").toList, ("</p>").toList]
  , [("<p>").toList, ("记住网址").toList, ("</p>").toList]
  , [("<p>").toList, ("biq").toList, ("</p>").toList]
  , [("<p>").toList, ("笔趣").toList, ("</p>").toList]
  , [("<p>").toList, ("()").toList]
  ]

/-- The pattern-removal phase of clean_content: each pattern is substituted
away in turn. -/
def removeAds (s : List Char) : List Char :=
  adPatterns.foldl (fun acc p => subAll p acc) s

/-- A run of two newlines, the replacement text of the newline collapse. -/
def nlBlock (run : Nat) : List Char :=
  List.replicate (if 3 ≤ run then 2 else run) '\n'

/-- Newline collapse with a pending-run accumulator: a maximal run of three
or more newlines becomes exactly two, mirroring re.sub of three or more
newlines by two newlines. -/
def collapseRun : Nat → List Char → List Char
  | run, [] => nlBlock run
  | run, c :: cs =>
    if c = '\n' then collapseRun (run + 1) cs
    else nlBlock run ++ (c :: collapseRun 0 cs)

/-- Python str lstrip over the modelled whitespace set. -/
def lstrip (l : List Char) : List Char := l.dropWhile isPySpace

/-- Python str rstrip over the modelled whitespace set. -/
def rstrip (l : List Char) : List Char := (l.reverse.dropWhile isPySpace).reverse

/-- Python str strip. -/
def pstrip (l : List Char) : List Char := rstrip (lstrip l)

/-- clean_content from src/app.py: ad-pattern removal, collapse of runs of
three or more newlines to two, then strip. -/
def cleanContent (s : List Char) : List Char :=
  pstrip (collapseRun 0 (removeAds s))

/-- Whether a string starts with two newline characters. -/
def startsTwoNL : List Char → Bool
  | a :: b :: _ => a == '\n' && b == '\n'
  | _ => false

/-- Whether a string contains three consecutive newline characters. -/
def hasTriple : List Char → Bool
  | [] => false
  | c :: l => (c == '\n' && startsTwoNL l) || hasTriple l

/-- Whether a string has neither leading nor trailing whitespace. -/
def noEdgeWS (l : List Char) : Bool :=
  (match l.head? with | none => true | some c => !isPySpace c) &&
  (match l.getLast? with | none => true | some c => !isPySpace c)

/-- Every whitespace character in the string is a newline. -/
def allWSareNL (l : List Char) : Bool :=
  l.all (fun c => !isPySpace c || c == '\n')

/-- No two adjacent whitespace characters. -/
def noAdjWS : List Char → Bool
  | a :: b :: rest => (!(isPySpace a && isPySpace b)) && noAdjWS (b :: rest)
  | _ => true

/-- The whitespace normal form asserted by the specification: whitespace
runs collapsed to single newlines, and no leading or trailing whitespace. -/
def specWSNormal (l : List Char) : Bool :=
  allWSareNL l && noAdjWS l && noEdgeWS l

/-- Python single-character str.split: splitting the empty string yields one
empty field, and every separator opens a new field. -/
def pySplit (sep : Char) : List Char → List (List Char)
  | [] => [[]]
  | c :: cs =>
    if c = sep then [] :: pySplit sep cs
    else
      match pySplit sep cs with
      | [] => [[c]]
      | t :: ts => (c :: t) :: ts

/-- Chapter identifier derivation from src/app.py line 110:
chapter_url.split('/')[-1].split('.')[0]. -/
def chapterId (u : List Char) : List Char :=
  List.headD (pySplit '.' (List.getLastD (pySplit '/' u) [])) []

/-- The suffix of a URL after its last slash, the phrasing used by the
claim about identifier derivation. -/
def lastSegment (u : List Char) : List Char :=
  (u.reverse.takeWhile (fun c => c != '/')).reverse

/-- The prefix of a segment before its first dot, the phrasing used by the
claim about identifier derivation. -/
def beforeFirstDot (s : List Char) : List Char :=
  s.takeWhile (fun c => c != '.')

/-- Recursive form of lastSegment used to bridge pySplit and the
reverse-takeWhile phrasing. -/
def lastSegRec (sep : Char) : List Char → List Char
  | [] => []
  | c :: cs =>
    if sep ∈ cs then lastSegRec sep cs
    else if c = sep then cs else c :: cs

/-- An anchor element of the catalog page: optional href attribute and
visible text. -/
structure Link where
  href : Option (List Char)
  text : List Char
deriving DecidableEq, Repr

/-- A chapter dict as built by get_novel_info. -/
structure Chapter where
  chapter_id : List Char
  chapter_title : List Char
  chapter_url : List Char
  novel_name : List Char
  novel_url : List Char
deriving DecidableEq, Repr

/-- A row of the novel_catalog table. -/
structure CatalogRow where
  id : Nat
  novel_name : List Char
  chapter_id : List Char
  chapter_title : List Char
  chapter_url : List Char
  novel_url : List Char
deriving DecidableEq, Repr

/-- A row of the novel_content table. -/
structure ContentRow where
  id : Nat
  chapter_id : List Char
  content : List Char
  novel_name : List Char
deriving DecidableEq, Repr

/-- The SQLite database state: both tables plus their autoincrement
counters. Rows are kept in insertion order. -/
structure DB where
  catalog : List CatalogRow
  contents : List ContentRow
  nextCatalogId : Nat
  nextContentId : Nat
deriving DecidableEq, Repr

/-- The freshly created database. -/
def emptyDB : DB := ⟨[], [], 1, 1⟩

/-- The chapter-link extraction loop of get_novel_info (src/app.py lines
106-118): keep anchors that have an href and non-empty stripped text, in
page order; the URL resolver (urllib.parse.urljoin) is a parameter since it
is library code external to the repository. -/
def getNovelInfo (resolve : List Char → List Char → List Char)
    (url : List Char) (novelName : List Char) (links : List Link) :
    List Chapter :=
  links.filterMap fun a =>
    match a.href with
    | none => none
    | some h =>
      if pstrip a.text = [] then none
      else
        let cu := resolve url h
        some ⟨chapterId cu, pstrip a.text, cu, novelName, url⟩

/-- Truthiness of an optional request string: absent or empty is falsy. -/
def pyTruthy (o : Option (List Char)) : Bool :=
  match o with
  | none => false
  | some s => !s.isEmpty

/-- Catalog rows built by save_catalog_to_db for one chapter list, with
consecutive autoincrement ids starting at the given counter. -/
def mkRows (novelName : List Char) (chs : List Chapter) (novelUrl : List Char)
    (start : Nat) : List CatalogRow :=
  match chs with
  | [] => []
  | c :: cs =>
    ⟨start, novelName, c.chapter_id, c.chapter_title, c.chapter_url, novelUrl⟩
      :: mkRows novelName cs novelUrl (start + 1)

/-- save_catalog_to_db (src/app.py lines 165-182): delete the old catalog
rows of the novel, then insert the new ones, one commit. -/
def saveCatalogToDb (novelName : List Char) (chs : List Chapter)
    (novelUrl : List Char) (db : DB) : DB :=
  { db with
    catalog := db.catalog.filter (fun r => r.novel_name != novelName)
      ++ mkRows novelName chs novelUrl db.nextCatalogId
    nextCatalogId := db.nextCatalogId + chs.length }

/-- fetch_chapter_content (src/app.py lines 125-163). The network fetch,
parse and container probe are summarised by the fetched argument: none for
a transport error or a missing content container (both return False with no
write), some raw for the found container markup. On success the cleaned
content is inserted unless a row with the same chapter_id and novel_name
already exists. -/
def fetchChapterContent (fetched : Option (List Char)) (ch : Chapter)
    (db : DB) : DB × Bool :=
  match fetched with
  | none => (db, false)
  | some raw =>
    let content := cleanContent raw
    if db.contents.any (fun r =>
        r.chapter_id == ch.chapter_id && r.novel_name == ch.novel_name) then
      (db, true)
    else
      ({ db with
         contents := db.contents ++
           [⟨db.nextContentId, ch.chapter_id, content, ch.novel_name⟩]
         nextContentId := db.nextContentId + 1 }, true)

/-- One worker completion: run fetch_chapter_content for a chapter through
the fetch oracle and keep the database state. -/
def fetchStep (oracle : Chapter → Option (List Char)) (db : DB)
    (ch : Chapter) : DB :=
  (fetchChapterContent (oracle ch) ch db).1

/-- The content phase of crawl_novel: the pool completes every submitted
chapter; order lists the completions in their nondeterministic completion
order. -/
def runFetches (oracle : Chapter → Option (List Char)) (order : List Chapter)
    (db : DB) : DB :=
  order.foldl (fetchStep oracle) db

/-- The failure message of crawl_novel. -/
def crawlFailMsg : List Char := ("获取小说目录失败").toList

/-- The success message of crawl_novel. The source interpolates the
wall-clock duration into this message; the duration is not part of the
functional state and carries no per-chapter information, so it is elided. -/
def crawlDoneMsg : List Char := ("爬取完成").toList

/-- crawl_novel (src/app.py lines 184-206). parsed is the result of
get_novel_info: none stands for its exception path (which returns
(None, [])), some name with the chapter list for a successful parse. The
guard mirrors `if not novel_name or not chapters`. -/
def crawlNovel (parsed : Option (List Char) × List Chapter)
    (oracle : Chapter → Option (List Char)) (order : List Chapter)
    (url : List Char) (db : DB) : DB × Bool × List Char :=
  match parsed with
  | (none, _) => (db, false, crawlFailMsg)
  | (some novelName, chapters) =>
    if novelName.isEmpty || chapters.isEmpty then (db, false, crawlFailMsg)
    else
      let db1 := saveCatalogToDb novelName chapters url db
      (runFetches oracle order db1, true, crawlDoneMsg)

/-- The database states observable during crawl_novel: the initial state,
the state after the catalog commit, and the state after each chapter
content commit. -/
def crawlTrace (parsed : Option (List Char) × List Chapter)
    (oracle : Chapter → Option (List Char)) (order : List Chapter)
    (url : List Char) (db : DB) : List DB :=
  match parsed with
  | (none, _) => [db]
  | (some novelName, chapters) =>
    if novelName.isEmpty || chapters.isEmpty then [db]
    else db :: order.scanl (fetchStep oracle)
      (saveCatalogToDb novelName chapters url db)

/-- Insertion into a list of catalog rows sorted by id. -/
def insertById (r : CatalogRow) : List CatalogRow → List CatalogRow
  | [] => [r]
  | x :: xs => if r.id ≤ x.id then r :: x :: xs else x :: insertById r xs

/-- order_by(NovelCatalog.id): sort rows by ascending id. -/
def sortById (l : List CatalogRow) : List CatalogRow :=
  l.foldr insertById []

/-- Decimal decoding of the novel_id request string, mirroring the SQLite
integer affinity applied when the text parameter is compared with the
integer id column: a digit string matches its numeric value, anything else
matches no row. -/
def decodeNat (s : List Char) : Option Nat :=
  if !s.isEmpty && s.all Char.isDigit then
    some (s.foldl (fun a c => a * 10 + (c.toNat - 48)) 0)
  else none

/-- A response of the catalog API: code, message and data list. -/
structure CatalogResp where
  code : Nat
  msg : List Char
  data : List CatalogRow
deriving DecidableEq, Repr

/-- get_catalog (src/app.py lines 220-236): reject when both parameters are
falsy, otherwise apply the truthy filters and return rows ordered by id. -/
def getCatalogApi (novelName novelId : Option (List Char)) (db : DB) :
    CatalogResp :=
  if !pyTruthy novelName && !pyTruthy novelId then
    ⟨1, ("参数错误").toList, []⟩
  else
    let rows := db.catalog
    let rows := if pyTruthy novelName then
        rows.filter (fun r => r.novel_name == novelName.getD []) else rows
    let rows := if pyTruthy novelId then
        rows.filter (fun r => some r.id == decodeNat (novelId.getD []))
      else rows
    ⟨0, [], sortById rows⟩

/-- A response of the content API: code, message and optional row. -/
structure ContentResp where
  code : Nat
  msg : List Char
  data : Option ContentRow
deriving DecidableEq, Repr

/-- get_content (src/app.py lines 238-249): filter by chapter_id only and
take the first row in insertion order. -/
def getContentApi (chapterIdArg : Option (List Char)) (db : DB) :
    ContentResp :=
  if !pyTruthy chapterIdArg then ⟨1, ("参数错误").toList, none⟩
  else
    match (db.contents.filter
        (fun r => r.chapter_id == chapterIdArg.getD [])).head? with
    | none => ⟨2, ("章节不存在").toList, none⟩
    | some r => ⟨0, [], some r⟩

/-- start_crawl (src/app.py lines 251-267). The crawl thread is modelled
synchronously: the returned state is the state after the spawned
crawl_novel has run to completion. Code 1: missing url; code 2: the
supplied novel_name already has a catalog row; code 0: crawl started. -/
def startCrawlApi (url novelName : Option (List Char))
    (parsed : Option (List Char) × List Chapter)
    (oracle : Chapter → Option (List Char)) (order : List Chapter)
    (db : DB) : Nat × DB :=
  if !pyTruthy url then (1, db)
  else if pyTruthy novelName &&
      db.catalog.any (fun r => r.novel_name == novelName.getD []) then
    (2, db)
  else (0, (crawlNovel parsed oracle order (url.getD []) db).1)

/-- The per-chapter-identifier content invariant asserted by the content
uniqueness claim: no two content rows share a chapter_id and novel_name. -/
def dupFree : List ContentRow → Bool
  | [] => true
  | r :: rs =>
    (!rs.any (fun x =>
      x.chapter_id == r.chapter_id && x.novel_name == r.novel_name)) &&
    dupFree rs

/-- Every content row is backed by a committed catalog row of its novel. -/
def orphanFree (db : DB) : Bool :=
  db.contents.all (fun r => db.catalog.any (fun c =>
    c.chapter_id == r.chapter_id && c.novel_name == r.novel_name))

/-- One crawl job for reachability statements: parse result, fetch oracle,
completion order and source URL. -/
structure Job where
  parsed : Option (List Char) × List Chapter
  oracle : Chapter → Option (List Char)
  order : List Chapter
  url : List Char

/-- Run a sequence of crawl jobs against a database. -/
def runJobs (jobs : List Job) (db : DB) : DB :=
  jobs.foldl (fun d j => (crawlNovel j.parsed j.oracle j.order j.url d).1) db

/-- The content-row membership test used by fetch_chapter_content and by the
invariants, for one chapter. -/
def rowMatches (ch : Chapter) (r : ContentRow) : Bool :=
  r.chapter_id == ch.chapter_id && r.novel_name == ch.novel_name

/-- A fixture chapter of novel T with derived identifier 1. -/
def chT1 : Chapter :=
  ⟨("1").toList, ("c1").toList, ("http://s/a/1.html").toList,
   ("T").toList, ("http://s/a/").toList⟩

/-- A fixture chapter of novel T with derived identifier 2. -/
def chT2 : Chapter :=
  ⟨("2").toList, ("c2").toList, ("http://s/a/2.html").toList,
   ("T").toList, ("http://s/a/").toList⟩

/-- A fixture chapter of novel B whose derived identifier collides with the
identifier of the first chapter of novel T. -/
def chB1 : Chapter :=
  ⟨("1").toList, ("d1").toList, ("http://s/b/1.html").toList,
   ("B").toList, ("http://s/b/").toList⟩

/-- The fixture novel title. -/
def nameT : List Char := ("T").toList

/-- The fixture catalog URL. -/
def urlT : List Char := ("http://s/a/").toList

/-- A fetch oracle under which every chapter fetch succeeds. -/
def oracleAll : Chapter → Option (List Char) := fun _ => some (("x").toList)

/-- A fetch oracle under which exactly the second fixture chapter fails. -/
def oracleSkipT2 : Chapter → Option (List Char) :=
  fun c => if c = chT2 then none else some (("x").toList)

/-- Fixture catalog anchors: two usable links, one link without href and one
link with whitespace-only text. -/
def linksT : List Link :=
  [ ⟨some (("1.html").toList), (" c1 ").toList⟩
  , ⟨none, ("zz").toList⟩
  , ⟨some (("2.html").toList), ("  ").toList⟩
  , ⟨some (("2.html").toList), ("c2").toList⟩ ]

/-- A fixture URL resolver standing in for urljoin. -/
def resolveConcat : List Char → List Char → List Char :=
  fun base h => base ++ h

theorem hasTriple_cons (c : Char) (l : List Char) :
    hasTriple (c :: l) = ((c == '\n' && startsTwoNL l) || hasTriple l) := rfl

theorem hasTriple_append_right {a b : List Char}
    (h : hasTriple (a ++ b) = false) : hasTriple b = false := by
  induction a with
  | nil => simpa using h
  | cons c cs ih =>
    rw [List.cons_append, hasTriple_cons, Bool.or_eq_false_iff] at h
    exact ih h.2

theorem startsTwoNL_append_long (x y : Char) (l m : List Char) :
    startsTwoNL ((x :: y :: l) ++ m) = startsTwoNL (x :: y :: l) := by
  simp [startsTwoNL]

theorem hasTriple_append_left {a b : List Char}
    (h : hasTriple (a ++ b) = false) : hasTriple a = false := by
  induction a with
  | nil => simp [hasTriple]
  | cons c cs ih =>
    rw [List.cons_append, hasTriple_cons, Bool.or_eq_false_iff] at h
    rw [hasTriple_cons, Bool.or_eq_false_iff]
    refine ⟨?_, ih h.2⟩
    match cs, h.1 with
    | [], _ => simp [startsTwoNL]
    | [x], _ => simp [startsTwoNL]
    | x :: y :: t, h1 => rw [startsTwoNL_append_long] at h1; exact h1

theorem hasTriple_dropWhile (p : Char → Bool) (l : List Char)
    (h : hasTriple l = false) : hasTriple (l.dropWhile p) = false := by
  induction l with
  | nil => simpa using h
  | cons c cs ih =>
    rw [hasTriple_cons, Bool.or_eq_false_iff] at h
    rw [List.dropWhile_cons]
    split
    · exact ih h.2
    · rw [hasTriple_cons, Bool.or_eq_false_iff]; exact ⟨h.1, h.2⟩

theorem rstrip_decomp (l : List Char) : ∃ t, l = rstrip l ++ t := by
  obtain ⟨u, hu⟩ := (List.dropWhile_suffix (l := l.reverse) isPySpace)
  refine ⟨u.reverse, ?_⟩
  have := congrArg List.reverse hu
  simpa [rstrip] using this.symm

theorem hasTriple_rstrip (l : List Char) (h : hasTriple l = false) :
    hasTriple (rstrip l) = false := by
  obtain ⟨t, ht⟩ := rstrip_decomp l
  rw [ht] at h
  exact hasTriple_append_left h

theorem hasTriple_pstrip (l : List Char) (h : hasTriple l = false) :
    hasTriple (pstrip l) = false :=
  hasTriple_rstrip _ (hasTriple_dropWhile _ _ h)

theorem dropWhile_head_false {p : Char → Bool} {l m : List Char} {c : Char}
    (h : l.dropWhile p = c :: m) : p c = false := by
  induction l with
  | nil => simp at h
  | cons x xs ih =>
    rw [List.dropWhile_cons] at h
    by_cases hp : p x = true
    · rw [if_pos hp] at h; exact ih h
    · rw [if_neg hp] at h
      obtain ⟨rfl, -⟩ := List.cons.inj h
      simpa using hp

theorem dropWhile_dropWhile (p : Char → Bool) (l : List Char) :
    (l.dropWhile p).dropWhile p = l.dropWhile p := by
  cases h : l.dropWhile p with
  | nil => rfl
  | cons c m =>
    have := dropWhile_head_false h
    simp [List.dropWhile_cons, this]

theorem rstrip_rstrip (l : List Char) : rstrip (rstrip l) = rstrip l := by
  simp [rstrip, dropWhile_dropWhile]

theorem lstrip_of_rstrip_lstrip (l : List Char) :
    lstrip (rstrip (lstrip l)) = rstrip (lstrip l) := by
  cases h : rstrip (lstrip l) with
  | nil => simp [lstrip]
  | cons c m =>
    obtain ⟨t, ht⟩ := rstrip_decomp (lstrip l)
    rw [h] at ht
    have hc : isPySpace c = false := by
      have : lstrip l = c :: (m ++ t) := by simpa using ht
      exact dropWhile_head_false (p := isPySpace) this
    simp [lstrip, List.dropWhile_cons, hc]

theorem pstrip_idem (l : List Char) : pstrip (pstrip l) = pstrip l := by
  show rstrip (lstrip (rstrip (lstrip l))) = rstrip (lstrip l)
  rw [lstrip_of_rstrip_lstrip, rstrip_rstrip]

theorem pstrip_cons_head {l m : List Char} {c : Char}
    (h : pstrip l = c :: m) : isPySpace c = false := by
  obtain ⟨t, ht⟩ := rstrip_decomp (lstrip l)
  rw [show pstrip l = rstrip (lstrip l) from rfl] at h
  rw [h] at ht
  exact dropWhile_head_false (p := isPySpace) (by simpa using ht)

theorem pstrip_getLast {l : List Char} {c : Char}
    (h : (pstrip l).getLast? = some c) : isPySpace c = false := by
  have e : (pstrip l).reverse = List.dropWhile isPySpace (lstrip l).reverse := by
    simp [pstrip, rstrip]
  have h2 : (List.dropWhile isPySpace (lstrip l).reverse).head? = some c := by
    rw [← e, List.head?_reverse, h]
  cases hd : List.dropWhile isPySpace (lstrip l).reverse with
  | nil => rw [hd] at h2; simp at h2
  | cons x xs =>
    rw [hd] at h2
    simp only [List.head?_cons, Option.some.injEq] at h2
    subst h2
    exact dropWhile_head_false hd

theorem noEdgeWS_pstrip (l : List Char) : noEdgeWS (pstrip l) = true := by
  cases hp : pstrip l with
  | nil => simp [noEdgeWS]
  | cons c m =>
    have hc : isPySpace c = false := pstrip_cons_head hp
    rw [noEdgeWS, Bool.and_eq_true]
    refine ⟨by simp [hc], ?_⟩
    cases hg : (c :: m).getLast? with
    | none => simp at hg
    | some d =>
      have hd : isPySpace d = false := pstrip_getLast (l := l) (by rw [hp, hg])
      simp [hg, hd]

theorem replicate_append_cons (n : Nat) (x : Char) (l : List Char) :
    List.replicate n x ++ x :: l = List.replicate (n + 1) x ++ l := by
  rw [List.replicate_succ' n x, List.append_assoc]; rfl

theorem hasTriple_replicate_ge3 (n : Nat) (l : List Char) (h : 3 ≤ n) :
    hasTriple (List.replicate n '\n' ++ l) = true := by
  obtain ⟨m, rfl⟩ : ∃ m, n = m + 3 := ⟨n - 3, by omega⟩
  show hasTriple (List.replicate (m + 3) '\n' ++ l) = true
  rw [show m + 3 = (m + 2) + 1 from rfl, List.replicate_succ,
    show m + 2 = (m + 1) + 1 from rfl, List.replicate_succ,
    List.replicate_succ]
  simp [hasTriple_cons, startsTwoNL]

theorem run_le_two {n : Nat} {l : List Char}
    (h : hasTriple (List.replicate n '\n' ++ l) = false) : n ≤ 2 := by
  by_contra hc
  rw [hasTriple_replicate_ge3 n l (by omega)] at h
  exact absurd h (by simp)

theorem collapseRun_fix (s : List Char) : ∀ run : Nat,
    hasTriple (List.replicate run '\n' ++ s) = false →
    collapseRun run s = List.replicate run '\n' ++ s := by
  induction s with
  | nil =>
    intro run h
    have h2 := run_le_two h
    simp [collapseRun, nlBlock, Nat.not_le.2 (by omega : run < 3)]
  | cons c cs ih =>
    intro run h
    by_cases hc : c = '\n'
    · subst hc
      rw [replicate_append_cons] at h
      have e : collapseRun run ('\n' :: cs) = collapseRun (run + 1) cs := by
        simp [collapseRun]
      rw [e, ih (run + 1) h, replicate_append_cons]
    · have h2 := run_le_two h
      have hcs : hasTriple cs = false := by
        have := hasTriple_append_right h
        rw [hasTriple_cons, Bool.or_eq_false_iff] at this
        exact this.2
      simp only [collapseRun, if_neg hc]
      rw [show collapseRun 0 cs = List.replicate 0 '\n' ++ cs from
        ih 0 (by simpa using hcs)]
      simp [nlBlock, Nat.not_le.2 (by omega : run < 3)]

theorem hasTriple_two_block (m : Nat) (c : Char) (l : List Char)
    (hm : m ≤ 2) (hc : c ≠ '\n') (hl : hasTriple l = false) :
    hasTriple (List.replicate m '\n' ++ c :: l) = false := by
  have hcb : (c == '\n') = false := by simpa using hc
  interval_cases m
  · simpa [hasTriple_cons, hcb] using hl
  · rw [show List.replicate 1 '\n' = ['\n'] from rfl]
    have hst : startsTwoNL (c :: l) = false := by
      cases l <;> simp [startsTwoNL, hcb]
    simp [hasTriple_cons, hst, hcb, hl]
  · rw [show List.replicate 2 '\n' = ['\n', '\n'] from rfl]
    have hst2 : startsTwoNL ('\n' :: c :: l) = false := by
      simp [startsTwoNL, hcb]
    have hst : startsTwoNL (c :: l) = false := by
      cases l <;> simp [startsTwoNL, hcb]
    simp [hasTriple_cons, hst2, hst, hcb, hl]

theorem hasTriple_nlBlock (run : Nat) : hasTriple (nlBlock run) = false := by
  rw [nlBlock]
  split
  · decide
  · next h => interval_cases run <;> decide

theorem hasTriple_collapseRun (s : List Char) : ∀ run : Nat,
    hasTriple (collapseRun run s) = false := by
  induction s with
  | nil => intro run; simpa [collapseRun] using hasTriple_nlBlock run
  | cons c cs ih =>
    intro run
    by_cases hc : c = '\n'
    · subst hc; simpa [collapseRun] using ih (run + 1)
    · simp only [collapseRun, if_neg hc]
      rw [nlBlock]
      exact hasTriple_two_block _ c _ (by split <;> omega) hc (ih 0)

theorem cleanContent_hasTriple (s : List Char) :
    hasTriple (cleanContent s) = false :=
  hasTriple_pstrip _ (hasTriple_collapseRun _ 0)

theorem cleanContent_noEdgeWS (s : List Char) :
    noEdgeWS (cleanContent s) = true :=
  noEdgeWS_pstrip _

theorem fetchStep_catalog (o : Chapter → Option (List Char)) (db : DB)
    (c : Chapter) : (fetchStep o db c).catalog = db.catalog := by
  rw [fetchStep, fetchChapterContent.eq_def]
  cases o c with
  | none => rfl
  | some raw => dsimp only; split <;> rfl

theorem runFetches_catalog (o : Chapter → Option (List Char))
    (l : List Chapter) (db : DB) :
    (runFetches o l db).catalog = db.catalog := by
  induction l generalizing db with
  | nil => rfl
  | cons c cs ih =>
    rw [runFetches, List.foldl_cons]
    rw [show List.foldl (fetchStep o) (fetchStep o db c) cs =
      runFetches o cs (fetchStep o db c) from rfl]
    rw [ih, fetchStep_catalog]

theorem fetchStep_contents (o : Chapter → Option (List Char)) (db : DB)
    (c : Chapter) : ∃ t, (fetchStep o db c).contents = db.contents ++ t := by
  rw [fetchStep, fetchChapterContent.eq_def]
  cases o c with
  | none => exact ⟨[], by simp⟩
  | some raw =>
    dsimp only
    split
    · exact ⟨[], by simp⟩
    · exact ⟨_, rfl⟩

theorem runFetches_contents (o : Chapter → Option (List Char))
    (l : List Chapter) (db : DB) :
    ∃ t, (runFetches o l db).contents = db.contents ++ t := by
  induction l generalizing db with
  | nil => exact ⟨[], by simp [runFetches]⟩
  | cons c cs ih =>
    rw [runFetches, List.foldl_cons]
    obtain ⟨t1, h1⟩ := fetchStep_contents o db c
    obtain ⟨t2, h2⟩ := ih (fetchStep o db c)
    exact ⟨t1 ++ t2, by rw [show List.foldl (fetchStep o) (fetchStep o db c) cs
      = runFetches o cs (fetchStep o db c) from rfl, h2, h1, List.append_assoc]⟩

theorem fetchStep_commits (o : Chapter → Option (List Char)) (db : DB)
    (c : Chapter) (h : (o c).isSome = true) :
    (fetchStep o db c).contents.any (rowMatches c) = true := by
  rw [fetchStep, fetchChapterContent.eq_def]
  cases hc : o c with
  | none => rw [hc] at h; simp at h
  | some raw =>
    dsimp only
    split
    · next hex => simpa [rowMatches] using hex
    · simp [rowMatches]

theorem any_of_append_left {p : ContentRow → Bool} {l t : List ContentRow}
    (h : l.any p = true) : (l ++ t).any p = true := by
  rw [List.any_append, h, Bool.true_or]

theorem runFetches_commits (o : Chapter → Option (List Char))
    (l : List Chapter) (db : DB) (c : Chapter) (hmem : c ∈ l)
    (hsome : (o c).isSome = true) :
    (runFetches o l db).contents.any (rowMatches c) = true := by
  induction l generalizing db with
  | nil => simp at hmem
  | cons x xs ih =>
    rw [runFetches, List.foldl_cons,
      show List.foldl (fetchStep o) (fetchStep o db x) xs =
        runFetches o xs (fetchStep o db x) from rfl]
    rcases List.mem_cons.1 hmem with rfl | hxs
    · obtain ⟨t, ht⟩ := runFetches_contents o xs (fetchStep o db c)
      rw [ht]
      exact any_of_append_left (fetchStep_commits o db c hsome)
    · exact ih _ hxs

theorem mkRows_fields (name : List Char) (chs : List Chapter)
    (url : List Char) (s : Nat) :
    ∀ r ∈ mkRows name chs url s, r.novel_name = name ∧ s ≤ r.id := by
  induction chs generalizing s with
  | nil => intro r hr; simp [mkRows] at hr
  | cons c cs ih =>
    intro r hr
    rw [mkRows] at hr
    rcases List.mem_cons.1 hr with rfl | h
    · exact ⟨rfl, le_refl _⟩
    · obtain ⟨h1, h2⟩ := ih (s + 1) r h
      exact ⟨h1, by omega⟩

theorem mkRows_pairwise (name : List Char) (chs : List Chapter)
    (url : List Char) (s : Nat) :
    List.Pairwise (fun a b => a.id < b.id) (mkRows name chs url s) := by
  induction chs generalizing s with
  | nil => simp [mkRows]
  | cons c cs ih =>
    rw [mkRows]
    refine List.pairwise_cons.2 ⟨?_, ih (s + 1)⟩
    intro r hr
    have := (mkRows_fields name cs url (s + 1) r hr).2
    simpa using by omega

theorem mkRows_filter_self (name : List Char) (chs : List Chapter)
    (url : List Char) (s : Nat) :
    (mkRows name chs url s).filter (fun r => r.novel_name == name) =
      mkRows name chs url s := by
  induction chs generalizing s with
  | nil => simp [mkRows]
  | cons c cs ih => simp [mkRows, List.filter_cons, ih]

theorem mkRows_map_key (name : List Char) (chs : List Chapter)
    (url : List Char) (s : Nat) :
    (mkRows name chs url s).map
        (fun r => (r.chapter_id, r.chapter_title, r.chapter_url)) =
      chs.map (fun c => (c.chapter_id, c.chapter_title, c.chapter_url)) := by
  induction chs generalizing s with
  | nil => simp [mkRows]
  | cons c cs ih => simp [mkRows, ih]

theorem saveCatalog_filter (name : List Char) (chs : List Chapter)
    (url : List Char) (db : DB) :
    ((saveCatalogToDb name chs url db).catalog).filter
        (fun r => r.novel_name == name) =
      mkRows name chs url db.nextCatalogId := by
  rw [saveCatalogToDb]
  dsimp only
  rw [List.filter_append, mkRows_filter_self]
  have : (db.catalog.filter (fun r => r.novel_name != name)).filter
      (fun r => r.novel_name == name) = [] := by
    rw [List.filter_eq_nil_iff]
    intro r hr
    have := (List.mem_filter.1 hr).2
    simp only [bne_iff_ne, ne_eq] at this
    simp [this]
  rw [this, List.nil_append]

theorem sortById_of_pairwise (l : List CatalogRow)
    (h : List.Pairwise (fun a b => a.id < b.id) l) : sortById l = l := by
  induction l with
  | nil => rfl
  | cons x xs ih =>
    obtain ⟨hx, hxs⟩ := List.pairwise_cons.1 h
    rw [sortById, List.foldr_cons,
      show List.foldr insertById [] xs = sortById xs from rfl, ih hxs]
    cases xs with
    | nil => rfl
    | cons y ys =>
      rw [insertById, if_pos (le_of_lt (hx y (List.mem_cons_self y ys)))]

theorem crawlNovel_run (name : List Char) (chs : List Chapter)
    (oracle : Chapter → Option (List Char)) (order : List Chapter)
    (url : List Char) (db : DB) (hname : name ≠ []) (hchs : chs ≠ []) :
    crawlNovel (some name, chs) oracle order url db =
      (runFetches oracle order (saveCatalogToDb name chs url db), true,
        crawlDoneMsg) := by
  rw [crawlNovel]
  dsimp only
  rw [if_neg (by simp [hname, hchs])]

theorem crawl_catalog_rows (name : List Char) (chs : List Chapter)
    (oracle : Chapter → Option (List Char)) (order : List Chapter)
    (url : List Char) (db : DB) (hname : name ≠ []) (hchs : chs ≠ []) :
    ((crawlNovel (some name, chs) oracle order url db).1).catalog =
      db.catalog.filter (fun r => r.novel_name != name) ++
        mkRows name chs url db.nextCatalogId := by
  rw [crawlNovel_run name chs oracle order url db hname hchs]
  dsimp only
  rw [runFetches_catalog, saveCatalogToDb]

/-- Claim C4, amended: a successfully parsed catalog with zero chapter
links makes crawl_novel fail with exactly the same outcome as a catalog
fetch or parse failure, leaving the database untouched; no
novel-with-no-chapters record is created and the two cases are not
distinguishable. -/
theorem empty_catalog_fails (name url : List Char)
    (oracle : Chapter → Option (List Char)) (order : List Chapter) (db : DB) :
    crawlNovel (some name, []) oracle order url db = (db, false, crawlFailMsg) ∧
    crawlNovel (none, []) oracle order url db = (db, false, crawlFailMsg) := by
  constructor
  · rw [crawlNovel]
    dsimp only
    rw [if_pos (by simp)]
  · rfl

/-- Claim C4, counterexample: a parse that yields the title T and zero
chapters does not succeed, records nothing, and is equal in outcome to the
parse-failure case, contrary to the claimed empty-catalog success. -/
theorem empty_catalog_counterexample :
    (crawlNovel (some nameT, []) oracleAll [] urlT emptyDB).2.1 = false ∧
    (crawlNovel (some nameT, []) oracleAll [] urlT emptyDB).1 = emptyDB ∧
    crawlNovel (some nameT, []) oracleAll [] urlT emptyDB =
      crawlNovel (none, []) oracleAll [] urlT emptyDB := by
  refine ⟨rfl, rfl, rfl⟩

/-- Witness for the amended claim C4 at concrete inputs. -/
theorem empty_catalog_fails_witness :
    crawlNovel (some nameT, []) oracleAll [] urlT emptyDB =
      (emptyDB, false, crawlFailMsg) ∧
    crawlNovel (none, []) oracleAll [] urlT emptyDB =
      (emptyDB, false, crawlFailMsg) :=
  empty_catalog_fails nameT urlT oracleAll [] emptyDB

/-- Claim C2, amended: when the parsed catalog is non-empty, the job always
completes with the success outcome, and every chapter whose fetch oracle
succeeds has a committed content row in the final state, regardless of which
single chapter fails; but the final report is the constant success message
and carries no failure count. -/
theorem partial_failure_isolated (name : List Char) (chs : List Chapter)
    (oracle : Chapter → Option (List Char)) (order : List Chapter)
    (url : List Char) (db : DB) (hname : name ≠ []) (hchs : chs ≠ [])
    (hperm : order.Perm chs) :
    (crawlNovel (some name, chs) oracle order url db).2.1 = true ∧
    chs.all (fun c => !(oracle c).isSome ||
      ((crawlNovel (some name, chs) oracle order url db).1).contents.any
        (rowMatches c)) = true := by
  rw [crawlNovel_run name chs oracle order url db hname hchs]
  refine ⟨rfl, ?_⟩
  rw [List.all_eq_true]
  intro c hc
  cases hs : (oracle c).isSome with
  | false => simp
  | true =>
    rw [Bool.not_true, Bool.false_or]
    exact runFetches_commits oracle order _ c (hperm.mem_iff.2 hc) hs

/-- Witness for the amended claim C2 at concrete inputs: novel T with two
chapters, the second chapter failing to fetch. -/
theorem partial_failure_isolated_witness :
    (crawlNovel (some nameT, [chT1, chT2]) oracleSkipT2 [chT1, chT2] urlT
      emptyDB).2.1 = true ∧
    [chT1, chT2].all (fun c => !(oracleSkipT2 c).isSome ||
      ((crawlNovel (some nameT, [chT1, chT2]) oracleSkipT2 [chT1, chT2] urlT
        emptyDB).1).contents.any (rowMatches c)) = true :=
  partial_failure_isolated nameT [chT1, chT2] oracleSkipT2 [chT1, chT2] urlT
    emptyDB (by decide) (by decide) (List.Perm.refl _)

/-- Claim C2, counterexample: with one fetch failing out of two, the job
returns exactly the same final report as with zero failures, so the report
cannot include a failure count; the source message only interpolates the
elapsed wall-clock time. -/
theorem report_no_failure_count :
    [chT1, chT2].countP (fun c => (oracleSkipT2 c).isNone) = 1 ∧
    [chT1, chT2].countP (fun c => (oracleAll c).isNone) = 0 ∧
    (crawlNovel (some nameT, [chT1, chT2]) oracleSkipT2 [chT1, chT2] urlT
      emptyDB).2 =
      (crawlNovel (some nameT, [chT1, chT2]) oracleAll [chT1, chT2] urlT
        emptyDB).2 ∧
    (crawlNovel (some nameT, [chT1, chT2]) oracleSkipT2 [chT1, chT2] urlT
      emptyDB).2 = (true, crawlDoneMsg) := by
  refine ⟨by decide, by decide, rfl, rfl⟩

/-- Claim C1, amended: start_crawl short-circuits with code 2 (already
exists) only when the request itself supplies a novel_name that matches an
existing catalog row, leaving the state unchanged; and a re-crawl does not
accumulate a second ChapterRef set, because save_catalog_to_db replaces the
catalog rows of the novel, so the stored rows are exactly one row per
freshly parsed chapter. -/
theorem recrawl_behavior (url nn : Option (List Char))
    (parsed : Option (List Char) × List Chapter)
    (oracle : Chapter → Option (List Char)) (order : List Chapter) (db : DB)
    (name2 : List Char) (chs2 : List Chapter) (u2 : List Char) :
    (pyTruthy url = true → pyTruthy nn = true →
      db.catalog.any (fun r => r.novel_name == nn.getD []) = true →
      startCrawlApi url nn parsed oracle order db = (2, db)) ∧
    (name2 ≠ [] → chs2 ≠ [] →
      (((crawlNovel (some name2, chs2) oracle order u2 db).1).catalog.filter
          (fun r => r.novel_name == name2)).map
        (fun r => (r.chapter_id, r.chapter_title, r.chapter_url)) =
      chs2.map (fun c => (c.chapter_id, c.chapter_title, c.chapter_url))) := by
  constructor
  · intro h1 h2 h3
    rw [startCrawlApi, if_neg (by simp [h1]), if_pos (by simp [h2, h3])]
  · intro h1 h2
    rw [crawlNovel_run name2 chs2 oracle order u2 db h1 h2]
    dsimp only
    rw [runFetches_catalog, saveCatalog_filter, mkRows_map_key]

/-- Witness for the amended claim C1 at concrete inputs: on a state already
holding the catalog of novel T, a request that supplies the novel name gets
code 2 with the state unchanged, and a re-crawl of T stores exactly one row
per parsed chapter. -/
theorem recrawl_behavior_witness :
    startCrawlApi (some (("u").toList)) (some nameT)
        (some nameT, [chT1]) oracleAll [chT1]
        (DB.mk (mkRows nameT [chT1] urlT 1) [] 2 1) =
      (2, DB.mk (mkRows nameT [chT1] urlT 1) [] 2 1) ∧
    (((crawlNovel (some nameT, [chT1, chT2]) oracleAll [chT1, chT2] urlT
        (DB.mk (mkRows nameT [chT1] urlT 1) [] 2 1)).1).catalog.filter
        (fun r => r.novel_name == nameT)).map
      (fun r => (r.chapter_id, r.chapter_title, r.chapter_url)) =
      [chT1, chT2].map (fun c => (c.chapter_id, c.chapter_title, c.chapter_url)) :=
  ⟨(recrawl_behavior (some (("u").toList)) (some nameT) (some nameT, [chT1])
      oracleAll [chT1] (DB.mk (mkRows nameT [chT1] urlT 1) [] 2 1) nameT
      [chT1] urlT).1 (by decide) (by decide) (by decide),
   (recrawl_behavior (some (("u").toList)) (some nameT) (some nameT, [chT1])
      oracleAll [chT1, chT2] (DB.mk (mkRows nameT [chT1] urlT 1) [] 2 1) nameT
      [chT1, chT2] urlT).2 (by decide) (by decide)⟩

/-- Claim C1, counterexample: after a first completed crawl of a URL, a
second identical start_crawl request that supplies only the URL (as the
shipped front end does) returns code 0 and re-crawls instead of
short-circuiting with the already-exists code 2. -/
theorem second_crawl_not_shortcircuited :
    (startCrawlApi (some (("u").toList)) none (some nameT, [chT1]) oracleAll
      [chT1]
      (startCrawlApi (some (("u").toList)) none (some nameT, [chT1]) oracleAll
        [chT1] emptyDB).2).1 = 0 ∧
    (startCrawlApi (some (("u").toList)) none (some nameT, [chT1]) oracleAll
      [chT1]
      (startCrawlApi (some (("u").toList)) none (some nameT, [chT1]) oracleAll
        [chT1] emptyDB).2).1 ≠ 2 := by
  refine ⟨by decide, by decide⟩

/-- Claim C6: after a crawl of a parsed catalog, the catalog API returns,
for that novel, exactly the kept chapter links in their page order — links
without an href or with empty stripped text are dropped by get_novel_info
without leaving gaps — for every fetch completion order; so the ordinal
position of each returned row (its 1-based index, ordinals 1..N) matches
the order of appearance among kept links. -/
theorem catalog_ordinals (resolve : List Char → List Char → List Char)
    (url name : List Char) (links : List Link) (chs : List Chapter)
    (oracle : Chapter → Option (List Char)) (order : List Chapter) (db : DB)
    (_hchs : chs = getNovelInfo resolve url name links)
    (hname : name ≠ []) (hne : chs ≠ []) :
    ((getCatalogApi (some name) none
        ((crawlNovel (some name, chs) oracle order url db).1)).data).map
        (fun r => (r.chapter_id, r.chapter_title, r.chapter_url)) =
      chs.map (fun c => (c.chapter_id, c.chapter_title, c.chapter_url)) ∧
    ((getCatalogApi (some name) none
        ((crawlNovel (some name, chs) oracle order url db).1)).data).length =
      chs.length := by
  have htr : pyTruthy (some name) = true := by
    simp [pyTruthy, List.isEmpty_iff, hname]
  have hdata : (getCatalogApi (some name) none
      ((crawlNovel (some name, chs) oracle order url db).1)).data =
      mkRows name chs url db.nextCatalogId := by
    rw [getCatalogApi, if_neg (by simp [htr])]
    dsimp only
    rw [if_pos htr, if_neg (by simp [pyTruthy])]
    rw [crawlNovel_run name chs oracle order url db hname hne]
    dsimp only
    simp only [Option.getD_some]
    rw [runFetches_catalog, saveCatalog_filter]
    exact sortById_of_pairwise _ (mkRows_pairwise name chs url db.nextCatalogId)
  constructor
  · rw [hdata, mkRows_map_key]
  · rw [hdata]
    have := congrArg List.length (mkRows_map_key name chs url db.nextCatalogId)
    simpa using this

/-- Witness for claim C6 at concrete inputs: four anchors of which two are
kept, crawled into an empty store. -/
theorem catalog_ordinals_witness :
    ((getCatalogApi (some nameT) none
        ((crawlNovel (some nameT, getNovelInfo resolveConcat urlT nameT linksT)
          oracleAll [] urlT emptyDB).1)).data).map
        (fun r => (r.chapter_id, r.chapter_title, r.chapter_url)) =
      (getNovelInfo resolveConcat urlT nameT linksT).map
        (fun c => (c.chapter_id, c.chapter_title, c.chapter_url)) ∧
    ((getCatalogApi (some nameT) none
        ((crawlNovel (some nameT, getNovelInfo resolveConcat urlT nameT linksT)
          oracleAll [] urlT emptyDB).1)).data).length =
      (getNovelInfo resolveConcat urlT nameT linksT).length :=
  catalog_ordinals resolveConcat urlT nameT linksT
    (getNovelInfo resolveConcat urlT nameT linksT) oracleAll [] emptyDB rfl
    (by decide) (by decide)

theorem dupFree_append_one (l : List ContentRow) (r : ContentRow)
    (hl : dupFree l = true)
    (hr : ∀ x ∈ l, ¬ (x.chapter_id = r.chapter_id ∧
      x.novel_name = r.novel_name)) :
    dupFree (l ++ [r]) = true := by
  induction l with
  | nil => rw [List.nil_append]; simp [dupFree]
  | cons x xs ih =>
    rw [dupFree] at hl
    rw [Bool.and_eq_true] at hl
    rw [List.cons_append, dupFree, Bool.and_eq_true]
    constructor
    · rw [Bool.not_eq_true', List.any_eq_false]
      intro y hy
      rcases List.mem_append.1 hy with hy1 | hy2
      · have h1 := hl.1
        rw [Bool.not_eq_true', List.any_eq_false] at h1
        exact h1 y hy1
      · rcases List.mem_singleton.1 hy2 with rfl
        have hx := hr x (List.mem_cons_self x xs)
        intro hpred
        rw [Bool.and_eq_true, beq_iff_eq, beq_iff_eq] at hpred
        exact hx ⟨hpred.1.symm, hpred.2.symm⟩
    · exact ih hl.2 (fun y hy => hr y (List.mem_cons_of_mem x hy))

theorem fetchStep_dupFree (o : Chapter → Option (List Char)) (db : DB)
    (c : Chapter) (h : dupFree db.contents = true) :
    dupFree (fetchStep o db c).contents = true := by
  rw [fetchStep, fetchChapterContent.eq_def]
  cases o c with
  | none => exact h
  | some raw =>
    dsimp only
    split
    · exact h
    · next hex =>
      refine dupFree_append_one _ _ h ?_
      rw [Bool.not_eq_true, List.any_eq_false] at hex
      intro x hx hc
      have := hex x hx
      simp [hc.1, hc.2] at this

theorem runFetches_dupFree (o : Chapter → Option (List Char))
    (l : List Chapter) (db : DB) (h : dupFree db.contents = true) :
    dupFree (runFetches o l db).contents = true := by
  induction l generalizing db with
  | nil => exact h
  | cons c cs ih =>
    rw [runFetches, List.foldl_cons]
    exact ih _ (fetchStep_dupFree o db c h)

theorem crawlNovel_dupFree (parsed : Option (List Char) × List Chapter)
    (oracle : Chapter → Option (List Char)) (order : List Chapter)
    (url : List Char) (db : DB) (h : dupFree db.contents = true) :
    dupFree ((crawlNovel parsed oracle order url db).1).contents = true := by
  obtain ⟨nameOpt, chs⟩ := parsed
  rw [crawlNovel.eq_def]
  cases nameOpt with
  | none => exact h
  | some name =>
    dsimp only
    split
    · exact h
    · exact runFetches_dupFree oracle order _ h

/-- Claim C7, amended: on every database reachable by any sequence of crawl
jobs from the empty store, there is at most one ChapterContent row per
(chapter identifier, novel name) pair; uniqueness per bare chapter
identifier does not hold, because fetch_chapter_content checks existence
with both chapter_id and novel_name, and identifiers collide across
novels. -/
theorem content_unique_per_novel (jobs : List Job) :
    dupFree ((runJobs jobs emptyDB).contents) = true := by
  suffices h : ∀ (db : DB), dupFree db.contents = true →
      dupFree ((runJobs jobs db).contents) = true by
    exact h emptyDB rfl
  induction jobs with
  | nil => intro db h; exact h
  | cons j js ih =>
    intro db h
    rw [runJobs, List.foldl_cons]
    exact ih _ (crawlNovel_dupFree j.parsed j.oracle j.order j.url db h)

/-- Claim C7, counterexample: crawling novel T and then novel B, whose
chapter URLs both end in 1.html, leaves two ChapterContent rows with the
same chapter identifier, so get_content has two candidate rows instead of
at most one. -/
theorem duplicate_chapter_identifier :
    ((runJobs
        [⟨(some nameT, [chT1]), oracleAll, [chT1], urlT⟩,
         ⟨(some (("B").toList), [chB1]), oracleAll, [chB1],
           ("http://s/b/").toList⟩] emptyDB).contents.filter
      (fun r => r.chapter_id == ("1").toList)).length = 2 := by
  decide

theorem fetchStep_orphan (o : Chapter → Option (List Char)) (db : DB)
    (c : Chapter) (hdb : orphanFree db = true)
    (hc : db.catalog.any (fun row => row.chapter_id == c.chapter_id &&
      row.novel_name == c.novel_name) = true) :
    orphanFree (fetchStep o db c) = true := by
  rw [orphanFree] at hdb ⊢
  rw [fetchStep, fetchChapterContent.eq_def]
  cases o c with
  | none => exact hdb
  | some raw =>
    dsimp only
    split
    · exact hdb
    · rw [List.all_append, Bool.and_eq_true]
      refine ⟨hdb, ?_⟩
      simpa using hc

theorem scanl_orphan (o : Chapter → Option (List Char)) (order : List Chapter)
    (db : DB) (hdb : orphanFree db = true)
    (hav : ∀ c ∈ order, db.catalog.any (fun row =>
      row.chapter_id == c.chapter_id && row.novel_name == c.novel_name) = true) :
    (order.scanl (fetchStep o) db).all orphanFree = true := by
  induction order generalizing db with
  | nil => simpa using hdb
  | cons c cs ih =>
    rw [List.scanl_cons, List.singleton_append, List.all_cons,
      Bool.and_eq_true]
    refine ⟨hdb, ?_⟩
    refine ih (fetchStep o db c)
      (fetchStep_orphan o db c hdb (hav c (List.mem_cons_self c cs))) ?_
    intro x hx
    rw [fetchStep_catalog]
    exact hav x (List.mem_cons_of_mem c hx)

theorem mkRows_any (name : List Char) (chs : List Chapter) (url : List Char)
    (s : Nat) (c : Chapter) (hc : c ∈ chs) (hn : c.novel_name = name) :
    (mkRows name chs url s).any (fun row => row.chapter_id == c.chapter_id &&
      row.novel_name == c.novel_name) = true := by
  induction chs generalizing s with
  | nil => simp at hc
  | cons x xs ih =>
    rw [mkRows, List.any_cons]
    rcases List.mem_cons.1 hc with rfl | hxs
    · simp [hn]
    · rw [Bool.or_eq_true]
      right
      exact ih _ hxs

/-- Claim C5, amended: for a single crawl job run against the empty store,
every observable state (before the catalog commit, after it, and after
each chapter content commit) keeps the invariant that each ChapterContent
row is backed by a committed catalog row of its novel — the catalog batch
is always committed before any content write. Across jobs the invariant
fails, because replacing a catalog does not delete old content rows. -/
theorem catalog_before_content (name : List Char) (chs : List Chapter)
    (oracle : Chapter → Option (List Char)) (order : List Chapter)
    (url : List Char) (hsub : ∀ c ∈ order, c ∈ chs)
    (hnn : ∀ c ∈ chs, c.novel_name = name) :
    ((crawlTrace (some name, chs) oracle order url emptyDB).all orphanFree) =
      true := by
  rw [crawlTrace]
  by_cases hg : (name.isEmpty || chs.isEmpty) = true
  · rw [if_pos hg]; rfl
  · rw [if_neg hg, List.all_cons, Bool.and_eq_true]
    refine ⟨rfl, ?_⟩
    refine scanl_orphan oracle order (saveCatalogToDb name chs url emptyDB)
      (by rw [orphanFree]; rfl) ?_
    intro c hc
    show ((saveCatalogToDb name chs url emptyDB).catalog).any _ = true
    rw [saveCatalogToDb]
    dsimp only
    rw [show emptyDB.catalog = [] from rfl, List.filter_nil, List.nil_append]
    exact mkRows_any name chs url _ c (hsub c hc) (hnn c (hsub c hc))

/-- Witness for the amended claim C5 at concrete inputs. -/
theorem catalog_before_content_witness :
    ((crawlTrace (some nameT, [chT1]) oracleAll [chT1] urlT emptyDB).all
      orphanFree) = true :=
  catalog_before_content nameT [chT1] oracleAll [chT1] urlT (by decide)
    (by decide)

/-- Claim C5, counterexample: a second crawl of novel T whose catalog has
changed replaces the catalog rows but keeps the old content row, so the
trace of the second job contains observable states in which a
ChapterContent row references a chapter identifier with no committed
catalog row. -/
theorem recrawl_orphans_content :
    ((crawlTrace (some nameT, [chT2]) oracleAll [chT2] urlT
      ((crawlNovel (some nameT, [chT1]) oracleAll [chT1] urlT emptyDB).1)).all
        orphanFree) = false := by
  decide

/-- Claim C8, amended: the cleaned output never contains three or more
consecutive newlines and never has leading or trailing whitespace; runs of
one or two newlines and whitespace runs not made of newlines are preserved
as they are, so the output is not in the claimed single-newline normal
form. -/
theorem clean_whitespace_guarantee (s : List Char) :
    hasTriple (cleanContent s) = false ∧ noEdgeWS (cleanContent s) = true :=
  ⟨cleanContent_hasTriple s, cleanContent_noEdgeWS s⟩

/-- Claim C8, counterexample: the input with a double newline is returned
unchanged by clean_content, so its whitespace run is not collapsed into a
single newline and the output violates the claimed normal form. -/
theorem clean_not_single_newline :
    cleanContent (("a\n\nb").toList) = ("a\n\nb").toList ∧
    specWSNormal (cleanContent (("a\n\nb").toList)) = false := by
  refine ⟨by decide, by decide⟩

/-- Claim C3, amended: clean_content is idempotent on every input whose
cleaned output is a fixed point of the pattern-removal phase; in general a
second clean can remove more text, because removing one pattern can splice
the surrounding text into a new occurrence of an earlier pattern. -/
theorem clean_idempotent_when_stable (s : List Char)
    (h : removeAds (cleanContent s) = cleanContent s) :
    cleanContent (cleanContent s) = cleanContent s := by
  rw [cleanContent, h]
  rw [show collapseRun 0 (cleanContent s) = List.replicate 0 '\n' ++
      cleanContent s from
    collapseRun_fix (cleanContent s) 0 (by simpa using cleanContent_hasTriple s)]
  rw [List.replicate_zero, List.nil_append]
  rw [show cleanContent s = pstrip (collapseRun 0 (removeAds s)) from rfl]
  exact pstrip_idem _

/-- Witness for the amended claim C3 at a concrete input. -/
theorem clean_idempotent_when_stable_witness :
    cleanContent (cleanContent (("hello").toList)) =
      cleanContent (("hello").toList) :=
  clean_idempotent_when_stable (("hello").toList) (by decide)

/-- Claim C3, counterexample: on this input the first clean removes a
paragraph pattern and thereby splices the remaining text into a script
pattern, which only the second clean removes, so Clean(Clean(x)) differs
from Clean(x). -/
theorem clean_not_idempotent :
    cleanContent (cleanContent (("<scri<p>x()pt>y</script>").toList)) ≠
      cleanContent (("<scri<p>x()pt>y</script>").toList) := by
  decide

theorem pySplit_ne_nil (sep : Char) (s : List Char) : pySplit sep s ≠ [] := by
  induction s with
  | nil => simp [pySplit]
  | cons c cs ih =>
    rw [pySplit]
    split
    · simp
    · cases h : pySplit sep cs with
      | nil => exact absurd h ih
      | cons t ts => simp

theorem pySplit_length (sep : Char) (s : List Char) :
    (pySplit sep s).length = s.count sep + 1 := by
  induction s with
  | nil => simp [pySplit]
  | cons c cs ih =>
    rw [pySplit]
    by_cases hc : c = sep
    · subst hc
      rw [if_pos rfl]
      simp [List.count_cons, ih]
    · rw [if_neg hc]
      cases h : pySplit sep cs with
      | nil => exact absurd h (pySplit_ne_nil sep cs)
      | cons t ts =>
        rw [h] at ih
        simp only [List.length_cons] at ih ⊢
        rw [List.count_cons, if_neg (by simpa using hc)]
        omega

theorem pySplit_of_not_mem (sep : Char) (s : List Char) (h : sep ∉ s) :
    pySplit sep s = [s] := by
  induction s with
  | nil => rfl
  | cons c cs ih =>
    rw [pySplit, if_neg (by intro e; exact h (e ▸ List.mem_cons_self c cs))]
    rw [ih (fun hm => h (List.mem_cons_of_mem c hm))]

theorem headD_pySplit (sep : Char) (s : List Char) :
    List.headD (pySplit sep s) [] = s.takeWhile (fun c => c != sep) := by
  induction s with
  | nil => rfl
  | cons c cs ih =>
    rw [pySplit]
    by_cases hc : c = sep
    · subst hc
      rw [if_pos rfl, List.headD_cons, List.takeWhile_cons_of_neg (by simp)]
    · rw [if_neg hc]
      cases h : pySplit sep cs with
      | nil => exact absurd h (pySplit_ne_nil sep cs)
      | cons t ts =>
        rw [h, List.headD_cons] at ih
        rw [List.headD_cons, List.takeWhile_cons_of_pos (by simpa using hc), ih]

theorem getLastD_irrel {α : Type} (l : List α) (a b : α) (h : l ≠ []) :
    l.getLastD a = l.getLastD b := by
  cases l with
  | nil => exact absurd rfl h
  | cons x xs =>
    rw [List.getLastD_cons, List.getLastD_cons]

theorem getLastD_pySplit (sep : Char) (s : List Char) :
    List.getLastD (pySplit sep s) [] = lastSegRec sep s := by
  induction s with
  | nil => rfl
  | cons c cs ih =>
    rw [pySplit, lastSegRec]
    by_cases hc : c = sep
    · rw [if_pos hc, List.getLastD_cons]
      by_cases hm : sep ∈ cs
      · rw [if_pos hm]; exact ih
      · rw [if_neg hm, if_pos hc, pySplit_of_not_mem sep cs hm]
        simp
    · rw [if_neg hc]
      cases h : pySplit sep cs with
      | nil => exact absurd h (pySplit_ne_nil sep cs)
      | cons t ts =>
        by_cases hm : sep ∈ cs
        · rw [if_pos hm]
          cases ts with
          | nil =>
            exfalso
            have hl := pySplit_length sep cs
            rw [h] at hl
            simp only [List.length_cons, List.length_nil] at hl
            have := List.count_pos_iff.2 hm
            omega
          | cons u us =>
            rw [List.getLastD_cons]
            rw [h, List.getLastD_cons] at ih
            rw [← ih]
            exact (getLastD_irrel (u :: us) t (c :: t) (by simp)).symm
        · rw [if_neg hm, if_neg hc]
          have := pySplit_of_not_mem sep cs hm
          rw [this] at h
          obtain ⟨rfl, rfl⟩ : t = cs ∧ ts = [] := by
            simpa using h.symm
          rfl

theorem takeWhile_append_all {p : Char → Bool} {l : List Char}
    (m : List Char) (h : ∀ x ∈ l, p x = true) :
    (l ++ m).takeWhile p = l ++ m.takeWhile p := by
  induction l with
  | nil => rfl
  | cons c cs ih =>
    rw [List.cons_append, List.takeWhile_cons_of_pos
      (h c (List.mem_cons_self c cs)), ih (fun x hx => h x (List.mem_cons_of_mem c hx))]
    rfl

theorem takeWhile_append_stop {p : Char → Bool} {l : List Char}
    (m : List Char) (h : ∃ x ∈ l, p x = false) :
    (l ++ m).takeWhile p = l.takeWhile p := by
  induction l with
  | nil => obtain ⟨x, hx, -⟩ := h; simp at hx
  | cons c cs ih =>
    by_cases hc : p c = true
    · rw [List.cons_append, List.takeWhile_cons_of_pos hc,
        List.takeWhile_cons_of_pos hc]
      obtain ⟨x, hx, hpx⟩ := h
      rcases List.mem_cons.1 hx with rfl | hxs
      · rw [hc] at hpx; cases hpx
      · rw [ih ⟨x, hxs, hpx⟩]
    · have hc2 : p c = false := by simpa using hc
      rw [List.cons_append, List.takeWhile_cons_of_neg (by simp [hc2]),
        List.takeWhile_cons_of_neg (by simp [hc2])]

theorem lastSegRec_eq_lastSegment (sep : Char) (s : List Char) :
    lastSegRec sep s = (s.reverse.takeWhile (fun c => c != sep)).reverse := by
  induction s with
  | nil => rfl
  | cons c cs ih =>
    rw [lastSegRec, List.reverse_cons]
    by_cases hm : sep ∈ cs
    · rw [if_pos hm, ih,
        takeWhile_append_stop [c] ⟨sep, by simpa using hm, by simp⟩]
    · have hall : ∀ x ∈ cs.reverse, (x != sep) = true := by
        intro x hx
        have : x ∈ cs := by simpa using hx
        simp only [bne_iff_ne, ne_eq]
        intro e; exact hm (e ▸ this)
      rw [if_neg hm, takeWhile_append_all [c] hall]
      by_cases hc : c = sep
      · subst hc
        rw [if_pos rfl, List.takeWhile_cons_of_neg (by simp)]
        simp
      · rw [if_neg hc, List.takeWhile_cons_of_pos (by simpa using hc)]
        simp

theorem chapterId_eq_spec (u : List Char) :
    chapterId u = beforeFirstDot (lastSegment u) := by
  rw [chapterId, getLastD_pySplit, lastSegRec_eq_lastSegment, headD_pySplit]
  rfl

theorem lastSegment_append (base t : List Char) (h : ('/') ∉ t) :
    lastSegment (base ++ '/' :: t) = t := by
  have hall : ∀ x ∈ t.reverse, (x != '/') = true := by
    intro x hx
    have hxm : x ∈ t := by simpa using hx
    simp only [bne_iff_ne, ne_eq]
    intro e; exact h (e ▸ hxm)
  rw [lastSegment, List.reverse_append, List.reverse_cons, List.append_assoc,
    List.singleton_append, takeWhile_append_all (('/') :: base.reverse) hall,
    List.takeWhile_cons_of_neg (by simp)]
  simp

theorem beforeFirstDot_exts (seg e1 e2 : List Char) :
    beforeFirstDot (seg ++ '.' :: e1) = beforeFirstDot (seg ++ '.' :: e2) := by
  by_cases hm : ('.') ∈ seg
  · rw [beforeFirstDot, beforeFirstDot,
      takeWhile_append_stop _ ⟨'.', hm, by simp⟩,
      takeWhile_append_stop _ ⟨'.', hm, by simp⟩]
  · have hall : ∀ x ∈ seg, (x != '.') = true := by
      intro x hx
      simp only [bne_iff_ne, ne_eq]
      intro e; exact hm (e ▸ hx)
    rw [beforeFirstDot, beforeFirstDot, takeWhile_append_all _ hall,
      takeWhile_append_all _ hall, List.takeWhile_cons_of_neg (by simp),
      List.takeWhile_cons_of_neg (by simp)]

/-- Claim C9: the stored chapter identifier is exactly the substring of the
resolved chapter URL after its last slash and before the first dot of that
segment, as a pure function of the URL string; hence two URLs that differ
only in the extension text after the first dot of their last segment get
the same identifier. -/
theorem chapterId_derivation :
    (∀ u : List Char, chapterId u = beforeFirstDot (lastSegment u)) ∧
    (∀ base seg e1 e2 : List Char, ('/') ∉ seg → ('/') ∉ e1 → ('/') ∉ e2 →
      chapterId (base ++ '/' :: (seg ++ '.' :: e1)) =
        chapterId (base ++ '/' :: (seg ++ '.' :: e2))) := by
  refine ⟨fun u => chapterId_eq_spec u, ?_⟩
  intro base seg e1 e2 h1 h2 h3
  have n1 : ('/') ∉ seg ++ '.' :: e1 := by
    intro hmem
    rcases List.mem_append.1 hmem with hLeft | hRight
    · exact h1 hLeft
    · rcases List.mem_cons.1 hRight with e | hE
      · exact absurd e (by decide)
      · exact h2 hE
  have n2 : ('/') ∉ seg ++ '.' :: e2 := by
    intro hmem
    rcases List.mem_append.1 hmem with hLeft | hRight
    · exact h1 hLeft
    · rcases List.mem_cons.1 hRight with e | hE
      · exact absurd e (by decide)
      · exact h3 hE
  rw [chapterId_eq_spec, chapterId_eq_spec, lastSegment_append base _ n1,
    lastSegment_append base _ n2]
  exact beforeFirstDot_exts seg e1 e2

/-- Witness for claim C9 at concrete URLs. -/
theorem chapterId_derivation_witness :
    chapterId (("http://s/a/4029000.html").toList) =
      beforeFirstDot (lastSegment (("http://s/a/4029000.html").toList)) ∧
    chapterId (("http://s/a").toList ++ '/' ::
        ((("4029000").toList) ++ '.' :: (("html").toList))) =
      chapterId (("http://s/a").toList ++ '/' ::
        ((("4029000").toList) ++ '.' :: (("txt").toList))) :=
  ⟨chapterId_derivation.1 (("http://s/a/4029000.html").toList),
   chapterId_derivation.2 (("http://s/a").toList) (("4029000").toList)
     (("html").toList) (("txt").toList) (by decide) (by decide) (by decide)⟩

/-- Claim C10: a catalog request in which both the novel_name and the
novel_id parameter are absent or empty is rejected with code 1 and a result
that does not depend on the stored catalog state, while a request that
supplies at least one non-empty parameter always succeeds with code 0 and a
possibly empty row list. -/
theorem catalog_param_validation (nn ni : Option (List Char)) (db1 db2 : DB) :
    (pyTruthy nn = false → pyTruthy ni = false →
      getCatalogApi nn ni db1 = ⟨1, ("参数错误").toList, []⟩ ∧
      getCatalogApi nn ni db1 = getCatalogApi nn ni db2) ∧
    ((pyTruthy nn = true ∨ pyTruthy ni = true) →
      (getCatalogApi nn ni db1).code = 0) := by
  constructor
  · intro h1 h2
    constructor
    · rw [getCatalogApi, if_pos (by simp [h1, h2])]
    · rw [getCatalogApi, if_pos (by simp [h1, h2]), getCatalogApi,
        if_pos (by simp [h1, h2])]
  · intro h
    rw [getCatalogApi, if_neg (by rcases h with h | h <;> simp [h])]

/-- Witness for claim C10 at concrete requests and states. -/
theorem catalog_param_validation_witness :
    (getCatalogApi none none emptyDB =
        CatalogResp.mk 1 (("参数错误").toList) [] ∧
      getCatalogApi none none emptyDB = getCatalogApi none none
        (DB.mk (mkRows nameT [chT1] urlT 1) [] 2 1)) ∧
    (getCatalogApi (some nameT) none emptyDB).code = 0 :=
  ⟨(catalog_param_validation none none emptyDB
      (DB.mk (mkRows nameT [chT1] urlT 1) [] 2 1)).1 rfl rfl,
   (catalog_param_validation (some nameT) none emptyDB emptyDB).2
     (Or.inl (by decide))⟩

end NovelCrawler
